import Mathlib

/-!
Shallow embedding of `src/trends_agent.py` (a manga-trends collection script).

Python strings are modelled by `String`, Python `None`-able fields by `Option`,
Python floats by exact rationals `ℚ` (the script only adds, multiplies,
compares and rounds to two decimals), and network / spreadsheet I/O by
explicit input parameters (`Except` for calls that can raise).
-/

namespace TrendsAgent

/- ### Strings -/

/-- Python `str.strip()` on the character list: drop leading and trailing
whitespace. -/
def stripChars (l : List Char) : List Char :=
  ((l.dropWhile Char.isWhitespace).reverse.dropWhile Char.isWhitespace).reverse

/-- Python `s.strip()`. -/
def pyStrip (s : String) : String := String.mk (stripChars s.data)

/-- Python `a or b` where `a` is an optional string (`None` and `""` are
falsy). Embeds the expressions of the form `t.get("english") or ...` in
`pick_title` (src/trends_agent.py line 35). -/
def pyOrS (a b : Option String) : Option String :=
  match a with
  | none => b
  | some s => if s = "" then b else some s

/- ### Title picking -/

/-- AniList title record `{romaji, english, native}`; each field may be
absent/null. -/
structure TitleRecord where
  romaji : Option String
  english : Option String
  native : Option String
deriving DecidableEq

/-- Source embedding of `pick_title` (src/trends_agent.py lines 34-35):
`(t.get("english") or t.get("romaji") or t.get("native") or "").strip()`. -/
def pick_title (t : TitleRecord) : String :=
  pyStrip ((pyOrS (pyOrS (pyOrS t.english t.romaji) t.native) (some "")).getD "")

/-- Helper for the spec-side rule: the value of an optional string if it is
present and non-empty. -/
def nonEmptyVal (o : Option String) : Option String :=
  match o with
  | none => none
  | some s => if s = "" then none else some s

/-- The Title Picker rule as the spec words it: "return english if non-empty,
else romaji if non-empty, else native if non-empty, else empty string"
(spec 4.1), with no whitespace stripping mentioned. -/
def titlePickerSpec (t : TitleRecord) : String :=
  match nonEmptyVal t.english with
  | some s => s
  | none =>
    match nonEmptyVal t.romaji with
    | some s => s
    | none =>
      match nonEmptyVal t.native with
      | some s => s
      | none => ""

/- ### Scorer -/

/-- Python `int(x or 0)` for an optional integer field: `None` and `0` are
falsy and yield `0` (src/trends_agent.py lines 51-53). -/
def pyOrZero (o : Option ℤ) : ℤ :=
  match o with
  | none => 0
  | some v => if v = 0 then 0 else v

/-- Python `round` to an integer, half-to-even (banker's rounding), on an
exact rational. -/
def roundHalfEven (x : ℚ) : ℤ :=
  let n := ⌊x⌋
  let r := x - n
  if r < 1 / 2 then n
  else if 1 / 2 < r then n + 1
  else if n % 2 = 0 then n else n + 1

/-- Python `round(x, 2)`, modelled on exact rationals. -/
def round2 (x : ℚ) : ℚ := (roundHalfEven (x * 100) : ℚ) / 100

/- ### Catalog fetcher -/

/-- One raw media item of the AniList GraphQL response: the query selects
`title { romaji english native } trending popularity favourites`
(src/trends_agent.py lines 16-27); the numeric fields may be null. -/
structure RawMediaItem where
  title : TitleRecord
  trending : Option ℤ
  popularity : Option ℤ
  favourites : Option ℤ
deriving DecidableEq

/-- One normalized result entry as built by the fetchers
(`{title, source, score, details}`). -/
structure Entry where
  title : String
  source : String
  score : ℚ
  details : String
deriving DecidableEq

/-- The per-item body of the loop in `fetch_anilist_trending`
(src/trends_agent.py lines 49-64): null-default the three signals, score
`trending * 2 + popularity * 0.01 + favourites * 0.05` rounded to 2 decimals. -/
def normalizeItem (m : RawMediaItem) : Entry :=
  let trending := pyOrZero m.trending
  let popularity := pyOrZero m.popularity
  let favourites := pyOrZero m.favourites
  let score : ℚ := (trending : ℚ) * 2 + (popularity : ℚ) * 0.01 + (favourites : ℚ) * 0.05
  { title := pick_title m.title
    source := "AniList"
    score := round2 score
    details := "trending=" ++ toString trending ++ ", pop=" ++ toString popularity
      ++ ", fav=" ++ toString favourites }

/-- The local transformation of `fetch_anilist_trending`
(src/trends_agent.py lines 38-65): the response's media list is truncated to
`limit` and each item normalized. The HTTP call itself is external input,
passed here as `media`. -/
def fetch_anilist_trending (limit : ℕ) (media : List RawMediaItem) : List Entry :=
  (media.take limit).map normalizeItem

/- ### Merger / ranker and sink rows -/

/-- One merged output row, before it is laid out as a spreadsheet row:
`[date, title, source, score, details]` (src/trends_agent.py lines 176-180). -/
structure Row where
  date : String
  title : String
  source : String
  score : ℚ
  details : String
deriving DecidableEq

/-- Building one merged row: `[date, item["title"], item["source"],
item["score"], item["details"]]`. -/
def rowOf (date : String) (e : Entry) : Row :=
  ⟨date, e.title, e.source, e.score, e.details⟩

/-- The comparator of `merged.sort(key=lambda r: float(r[3]), reverse=True)`
(src/trends_agent.py line 182): Python's sort is stable, and with
`reverse=True` it orders by score descending while keeping ties in input
order; embedded as a stable merge sort with this total Boolean relation. -/
def rowLE (a b : Row) : Bool := decide (b.score ≤ a.score)

/-- The merge-and-rank stage of `main` (src/trends_agent.py lines 176-182):
attach the run date to every entry, concatenate catalog entries then trends
entries, and stable-sort by score descending. -/
def mergeRank (date : String) (anilist gtrends : List Entry) : List Row :=
  ((anilist.map (rowOf date)) ++ (gtrends.map (rowOf date))).mergeSort rowLE

/-- One spreadsheet cell: the script's rows mix strings and numbers. -/
inductive Cell where
  | str (s : String)
  | num (q : ℚ)
deriving DecidableEq

/-- The concrete list shape of one appended row:
`[date, title, source, score, details]` — five cells. -/
def rowCells (r : Row) : List Cell :=
  [Cell.str r.date, Cell.str r.title, Cell.str r.source, Cell.num r.score, Cell.str r.details]

/-- The rows handed to `append_rows` in `main` (src/trends_agent.py line 184). -/
def written_rows (date : String) (anilist gtrends : List Entry) : List (List Cell) :=
  (mergeRank date anilist gtrends).map rowCells

/- ### Trends fetcher -/

/-- One collected trends row `(query, value, seed)` as appended to `all_rows`
(src/trends_agent.py line 96). -/
abbrev TRow := String × ℚ × String

/-- Outcome of one seed iteration of the loop in `fetch_google_trends`
(src/trends_agent.py lines 84-106): the body may raise (rate-limit or any
other exception), find no "rising" frame, or yield a list of
`(query, value)` pairs. -/
inductive SeedResult where
  | fail : SeedResult
  | noRising : SeedResult
  | rising (rows : List (String × ℚ)) : SeedResult
deriving DecidableEq

/-- The collection loop of `fetch_google_trends`: seeds are processed in
order; a raising seed makes the whole function return `[]` (modelled as
`none`); otherwise each seed contributes its first `limit` rows, each query
stripped and tagged with its seed. -/
def collectRows (limit : ℕ) : List (String × SeedResult) → Option (List TRow)
  | [] => some []
  | (_, SeedResult.fail) :: _ => none
  | (_, SeedResult.noRising) :: rest => collectRows limit rest
  | (seed, SeedResult.rising rows) :: rest =>
    (collectRows limit rest).map
      (fun tail => ((rows.take limit).map (fun r => (pyStrip r.1, r.2, seed))) ++ tail)

/-- One step of the dedup-by-query dict build (src/trends_agent.py lines
109-112): `if q not in best or v > best[q]["value"]: best[q] = ...`.
A Python dict keeps the insertion position of an existing key on update. -/
def insertBest : List TRow → TRow → List TRow
  | [], r => [r]
  | b :: rest, r =>
    if b.1 = r.1 then (if b.2.1 < r.2.1 then (b.1, r.2.1, r.2.2) :: rest else b :: rest)
    else b :: insertBest rest r

/-- The full `best` dict after folding all collected rows. -/
def buildBest : List TRow → List TRow → List TRow
  | best, [] => best
  | best, r :: rest => buildBest (insertBest best r) rest

/-- Comparator of `sorted(best.items(), key=lambda x: x[1]["value"],
reverse=True)` (src/trends_agent.py line 115): stable descending by value. -/
def trendLE (a b : TRow) : Bool := decide (b.2.1 ≤ a.2.1)

/-- The deduplicated, value-descending, truncated query list
(src/trends_agent.py line 115). -/
def topQueries (limit : ℕ) (rows : List TRow) : List TRow :=
  ((buildBest [] rows).mergeSort trendLE).take limit

/-- One trends result entry (src/trends_agent.py lines 116-123). -/
def mkTrendEntry (r : TRow) : Entry :=
  ⟨r.1, "GoogleTrends", round2 r.2.1, "seed=" ++ r.2.2 ++ ", rising=" ++ toString r.2.1⟩

/-- The whole of `fetch_google_trends` (src/trends_agent.py lines 68-124)
given the per-seed outcomes as input. -/
def fetch_google_trends (limit : ℕ) (seedResults : List (String × SeedResult)) : List Entry :=
  match collectRows limit seedResults with
  | none => []
  | some rows => (topQueries limit rows).map mkTrendEntry

/-- Verification helper: the value stored in the `best` association list at a
query key, if present. -/
def valAt (best : List TRow) (q : String) : Option ℚ :=
  (best.find? (fun b => b.1 == q)).map (fun b => b.2.1)

/- ### Config reader -/

/-- The run configuration `{country, limit}`. -/
structure Config where
  country : String
  limit : ℕ
deriving DecidableEq

/-- The built-in defaults `{"country": "MA", "limit": 30}`
(src/trends_agent.py line 143). -/
def defaultConfig : Config := ⟨"MA", 30⟩

/-- Python `str.isdigit()` (ASCII digits): non-empty and all digits. -/
def isDigitStr (s : String) : Bool := !s.isEmpty && s.data.all Char.isDigit

/-- Python `int(...)` on a digit string. -/
def pyInt (s : String) : ℕ := s.data.foldl (fun n c => n * 10 + (c.toNat - 48)) 0

/-- The two key checks of the config loop body (src/trends_agent.py lines
148-153): strip key and value, override `country` for a non-empty value and
`limit` for a digit-string value. -/
def applyRow (cfg : Config) (k v : String) : Config :=
  let ks := pyStrip k
  let vs := pyStrip v
  let cfg1 := if ks = "country" ∧ vs ≠ "" then { cfg with country := vs } else cfg
  if ks = "limit" ∧ isDigitStr vs = true then { cfg1 with limit := pyInt vs } else cfg1

/-- The config loop `for k, v in rows` (src/trends_agent.py lines 147-153):
a row that is not a two-element list raises on unpacking; the surrounding
`except` swallows the error, so the config built so far is returned. -/
def processRows : Config → List (List String) → Config
  | cfg, [] => cfg
  | cfg, [k, v] :: rest => processRows (applyRow cfg k v) rest
  | cfg, _ => cfg

/-- The whole of `read_config` (src/trends_agent.py lines 142-157): a failed
sheet read yields the defaults, otherwise the header row is dropped and the
remaining rows processed. -/
def read_config : Except Unit (List (List String)) → Config
  | Except.error _ => defaultConfig
  | Except.ok rows => processRows defaultConfig (rows.drop 1)

/- ### Catalog fallback (spec-modelled) -/

/-- A catalog item carrying the id used for de-duplication. -/
structure CatalogItem where
  id : ℕ
  title : String
deriving DecidableEq

/-- Modelled from the spec: the fallback-enabled Catalog Fetcher revision is
not under src/ (src/trends_agent.py holds the single-query trending variant).
Spec 4.4: "De-duplicate by item id when combining a primary query with a
fallback query (used when the primary yields fewer than `limit` qualifying
items — fallback supplies the remainder)." -/
def combineWithFallback (limit : ℕ) (primary fallback : List CatalogItem) : List CatalogItem :=
  if limit ≤ primary.length then primary.take limit
  else
    primary ++
      (fallback.filter (fun m => primary.all (fun p => p.id != m.id))).take
        (limit - primary.length)

/- ## Theorems -/

/- ### Generic helper lemmas -/

theorem pyStrip_empty : pyStrip "" = "" := rfl

theorem dropWhile_eq_self_of_head {p : Char → Bool} {l : List Char}
    (h : ∀ c, l.head? = some c → p c = false) : l.dropWhile p = l := by
  cases l with
  | nil => rfl
  | cons a t =>
    have ha := h a rfl
    simp [List.dropWhile_cons, ha]

theorem head?_dropWhile_false {p : Char → Bool} :
    ∀ (l : List Char) (c : Char), (l.dropWhile p).head? = some c → p c = false := by
  intro l
  induction l with
  | nil => intro c h; simp [List.dropWhile] at h
  | cons a t ih =>
    intro c h
    by_cases hp : p a
    · rw [List.dropWhile_cons_of_pos hp] at h
      exact ih c h
    · rw [List.dropWhile_cons_of_neg hp] at h
      simp at h
      subst h
      simpa using hp

theorem getLast?_dropWhile {p : Char → Bool} :
    ∀ (l : List Char) (c : Char), (l.dropWhile p).getLast? = some c → l.getLast? = some c := by
  intro l
  induction l with
  | nil => intro c h; simp [List.dropWhile] at h
  | cons a t ih =>
    intro c h
    by_cases hp : p a
    · rw [List.dropWhile_cons_of_pos hp] at h
      have := ih c h
      rw [List.getLast?_cons, this]
      rfl
    · rwa [List.dropWhile_cons_of_neg hp] at h

theorem stripChars_head {l : List Char} {c : Char}
    (h : (stripChars l).head? = some c) : Char.isWhitespace c = false := by
  unfold stripChars at h
  rw [List.head?_reverse] at h
  have h2 := getLast?_dropWhile _ _ h
  rw [List.getLast?_reverse] at h2
  exact head?_dropWhile_false _ _ h2

theorem stripChars_getLast {l : List Char} {c : Char}
    (h : (stripChars l).getLast? = some c) : Char.isWhitespace c = false := by
  unfold stripChars at h
  rw [List.getLast?_reverse] at h
  exact head?_dropWhile_false _ _ h

theorem stripChars_idem (l : List Char) : stripChars (stripChars l) = stripChars l := by
  have h1 : (stripChars l).dropWhile Char.isWhitespace = stripChars l :=
    dropWhile_eq_self_of_head (fun c hc => stripChars_head hc)
  have h2 : (stripChars l).reverse.dropWhile Char.isWhitespace = (stripChars l).reverse := by
    apply dropWhile_eq_self_of_head
    intro c hc
    rw [List.head?_reverse] at hc
    exact stripChars_getLast hc
  show ((((stripChars l).dropWhile _).reverse.dropWhile _)).reverse = stripChars l
  rw [h1, h2, List.reverse_reverse]

theorem pyStrip_idem (s : String) : pyStrip (pyStrip s) = pyStrip s := by
  unfold pyStrip
  rw [show (String.mk (stripChars s.data)).data = stripChars s.data from rfl, stripChars_idem]

/- ### Title picker -/

/-- Claim C7 (counterexample): `pick_title` does not return the english title
verbatim — it strips surrounding whitespace, so on
`english = " The One "` the result differs from the spec rule's output. -/
theorem pick_title_counterexample :
    pick_title ⟨none, some " The One ", none⟩ ≠
      titlePickerSpec ⟨none, some " The One ", none⟩ := by
  decide

/-- Claim C7 (amended): for every TitleRecord, the Title Picker returns the
spec's selection (english if non-empty, else romaji if non-empty, else native
if non-empty, else empty) stripped of leading and trailing whitespace; it is
pure and total. -/
theorem pick_title_eq_strip_spec (t : TitleRecord) :
    pick_title t = pyStrip (titlePickerSpec t) := by
  obtain ⟨r, e, n⟩ := t
  cases e <;> cases r <;> cases n <;>
    simp only [pick_title, titlePickerSpec, pyOrS, nonEmptyVal, Option.getD] <;>
    split_ifs <;> simp_all

/-- Claim C10: the Title Picker's output never has surrounding whitespace,
and a whitespace-only english title is selected (it is non-empty, hence
truthy) and stripped to the empty string, not passed over in favour of
romaji or native. -/
theorem pick_title_strips :
    (∀ t : TitleRecord, pyStrip (pick_title t) = pick_title t)
      ∧ pick_title ⟨some "Romaji", some "   ", none⟩ = "" := by
  constructor
  · intro t
    unfold pick_title
    exact pyStrip_idem _
  · decide

/- ### Scorer -/

theorem pyOrZero_eq_getD (o : Option ℤ) : pyOrZero o = o.getD 0 := by
  cases o with
  | none => rfl
  | some v =>
    by_cases h : v = 0 <;> simp [pyOrZero, h]

/-- Claim C1: for every trending, popularity and favourites input (each
possibly null, a null treated as 0), the Scorer returns
`round(trending*2 + popularity*0.01 + favourites*0.05, 2)`. -/
theorem scorer_formula (m : RawMediaItem) :
    (normalizeItem m).score =
      round2 ((m.trending.getD 0 : ℚ) * 2 + (m.popularity.getD 0 : ℚ) * 0.01
        + (m.favourites.getD 0 : ℚ) * 0.05) := by
  simp [normalizeItem, pyOrZero_eq_getD]

theorem roundHalfEven_intCast (n : ℤ) : roundHalfEven (n : ℚ) = n := by
  simp [roundHalfEven]

theorem score_at_10_100_20 :
    (normalizeItem ⟨⟨none, none, none⟩, some 10, some 100, some 20⟩).score = 22 := by
  simp only [normalizeItem, pyOrZero, round2]
  norm_num
  rw [show (2200 : ℚ) = ((2200 : ℤ) : ℚ) by norm_num, roundHalfEven_intCast]
  norm_num

/-- Claim C6 (counterexample): the Scorer at trending=10, popularity=100,
favourites=20 does not return 21.00 (the spec's example value). -/
theorem scorer_example_ne_21 :
    (normalizeItem ⟨⟨none, none, none⟩, some 10, some 100, some 20⟩).score ≠ 21 := by
  rw [score_at_10_100_20]
  norm_num

/-- Claim C6 (amended): the Scorer at trending=10, popularity=100,
favourites=20 returns 22.00 (`10*2 + 100*0.01 + 20*0.05 = 20 + 1 + 1`). -/
theorem scorer_example_eq_22 :
    (normalizeItem ⟨⟨none, none, none⟩, some 10, some 100, some 20⟩).score = 22 :=
  score_at_10_100_20

/- ### Merger / ranker -/

theorem mem_mergeRank {r : Row} {date : String} {anilist gtrends : List Entry} :
    r ∈ mergeRank date anilist gtrends ↔
      r ∈ (anilist.map (rowOf date)) ++ (gtrends.map (rowOf date)) := by
  unfold mergeRank
  exact List.mem_mergeSort

theorem mergeRank_date (date : String) (anilist gtrends : List Entry) :
    ∀ r ∈ mergeRank date anilist gtrends, r.date = date := by
  intro r hr
  rw [mem_mergeRank, List.mem_append] at hr
  rcases hr with h | h <;>
    · obtain ⟨e, -, rfl⟩ := List.mem_map.1 h
      rfl

theorem rowLE_trans : ∀ a b c : Row, rowLE a b → rowLE b c → rowLE a c := by
  intro a b c hab hbc
  simp only [rowLE, decide_eq_true_eq] at *
  exact le_trans hbc hab

theorem rowLE_total : ∀ a b : Row, rowLE a b || rowLE b a := by
  intro a b
  simp only [rowLE, Bool.or_eq_true, decide_eq_true_eq]
  exact le_total b.score a.score

/-- Claim C2: the Merger/Ranker permutes the date-tagged input rows, sorts
them by score descending, keeps entries of equal score in input order
(stability), and every output row carries the run's date. -/
theorem mergeRank_spec (date : String) (anilist gtrends : List Entry) :
    (mergeRank date anilist gtrends).Perm
        ((anilist.map (rowOf date)) ++ (gtrends.map (rowOf date)))
      ∧ (mergeRank date anilist gtrends).Pairwise (fun x y => y.score ≤ x.score)
      ∧ (∀ x y : Row,
          List.Sublist [x, y] ((anilist.map (rowOf date)) ++ (gtrends.map (rowOf date))) →
          x.score = y.score → List.Sublist [x, y] (mergeRank date anilist gtrends))
      ∧ (∀ r ∈ mergeRank date anilist gtrends, r.date = date) := by
  refine ⟨List.mergeSort_perm _ _, ?_, ?_, ?_⟩
  · have h := List.sorted_mergeSort rowLE_trans rowLE_total
      ((anilist.map (rowOf date)) ++ (gtrends.map (rowOf date)))
    exact h.imp (by intro a b hab; simpa [rowLE] using hab)
  · intro x y hsub hsc
    exact List.pair_sublist_mergeSort rowLE_trans rowLE_total
      (by simp [rowLE, hsc]) hsub
  · exact mergeRank_date date anilist gtrends

/-- Claim C2 (witness): on the spec's test vector — scores 5, 9, 9, 1 in that
input order — the two score-9 rows keep their input order in the output, and
every output row carries the run's date. -/
theorem mergeRank_spec_witness :
    (List.Sublist
        [⟨"2026-10-12", "B", "AniList", 9, ""⟩, ⟨"2026-10-12", "C", "AniList", 9, ""⟩]
        (mergeRank "2026-10-12"
          [⟨"A", "AniList", 5, ""⟩, ⟨"B", "AniList", 9, ""⟩,
            ⟨"C", "AniList", 9, ""⟩, ⟨"D", "AniList", 1, ""⟩] []))
      ∧ (∀ r ∈ mergeRank "2026-10-12"
          [⟨"A", "AniList", 5, ""⟩, ⟨"B", "AniList", 9, ""⟩,
            ⟨"C", "AniList", 9, ""⟩, ⟨"D", "AniList", 1, ""⟩] [], r.date = "2026-10-12") := by
  have h := mergeRank_spec "2026-10-12"
    [⟨"A", "AniList", 5, ""⟩, ⟨"B", "AniList", 9, ""⟩,
      ⟨"C", "AniList", 9, ""⟩, ⟨"D", "AniList", 1, ""⟩] []
  exact ⟨h.2.2.1 _ _ (by decide) rfl, h.2.2.2⟩

/- ### Sink rows (C5) -/

/-- Claim C5 (counterexample): a written row has five cells, not six — `main`
appends `[date, title, source, score, details]` with no status field. -/
theorem written_rows_counterexample :
    ∃ row ∈ written_rows "2026-10-12" [⟨"T", "AniList", 1, "x"⟩] [], row.length ≠ 6 := by
  refine ⟨rowCells (rowOf "2026-10-12" ⟨"T", "AniList", 1, "x"⟩), ?_, by simp [rowCells]⟩
  unfold written_rows
  rw [List.mem_map]
  exact ⟨rowOf "2026-10-12" ⟨"T", "AniList", 1, "x"⟩,
    mem_mergeRank.2 (by simp), rfl⟩

/-- Claim C5 (amended): every row appended to the sink is a fixed-width
five-field tuple `(date, title, source, score, details)` — there is no status
field — and its first field is the run date. -/
theorem written_rows_shape (date : String) (anilist gtrends : List Entry) :
    ∀ row ∈ written_rows date anilist gtrends, ∃ r : Row,
      row = [Cell.str r.date, Cell.str r.title, Cell.str r.source, Cell.num r.score,
          Cell.str r.details]
        ∧ row.length = 5 ∧ r.date = date := by
  intro row hrow
  obtain ⟨r, hr, rfl⟩ := List.mem_map.1 hrow
  exact ⟨r, rfl, rfl, mergeRank_date date anilist gtrends r hr⟩

/-- Claim C5 (witness): the amended row-shape theorem applied to a concrete
one-entry run. -/
theorem written_rows_shape_witness :
    ∃ r : Row,
      rowCells (rowOf "2026-10-12" ⟨"T", "AniList", 1, "x"⟩)
          = [Cell.str r.date, Cell.str r.title, Cell.str r.source, Cell.num r.score,
              Cell.str r.details]
        ∧ (rowCells (rowOf "2026-10-12" ⟨"T", "AniList", 1, "x"⟩)).length = 5
        ∧ r.date = "2026-10-12" := by
  apply written_rows_shape "2026-10-12" [⟨"T", "AniList", 1, "x"⟩] []
  unfold written_rows
  rw [List.mem_map]
  exact ⟨rowOf "2026-10-12" ⟨"T", "AniList", 1, "x"⟩,
    mem_mergeRank.2 (by simp), rfl⟩

/- ### Trends fetcher failure isolation (C3) -/

theorem collectRows_fail (limit : ℕ) :
    ∀ srs : List (String × SeedResult),
      (∃ s ∈ srs, s.2 = SeedResult.fail) → collectRows limit srs = none := by
  intro srs
  induction srs with
  | nil => rintro ⟨s, hs, -⟩; simp at hs
  | cons hd tl ih =>
    rintro ⟨s, hs, hfail⟩
    obtain ⟨seed, res⟩ := hd
    rcases List.mem_cons.1 hs with rfl | hmem
    · simp at hfail
      subst hfail
      rfl
    · cases res with
      | fail => rfl
      | noRising => exact ih ⟨s, hmem, hfail⟩
      | rising rows =>
        show (collectRows limit tl).map _ = none
        rw [ih ⟨s, hmem, hfail⟩]
        rfl

/-- Claim C3: an error on any seed inside the Trends Fetcher makes it return
the empty result set instead of propagating, and the run's merged output then
consists exactly of the catalog rows, each of which is still written. -/
theorem trends_failure_isolated (limit : ℕ) (srs : List (String × SeedResult))
    (date : String) (anilist : List Entry)
    (h : ∃ s ∈ srs, s.2 = SeedResult.fail) :
    fetch_google_trends limit srs = []
      ∧ (mergeRank date anilist (fetch_google_trends limit srs)).Perm
          (anilist.map (rowOf date))
      ∧ ∀ e ∈ anilist,
          rowCells (rowOf date e) ∈
            written_rows date anilist (fetch_google_trends limit srs) := by
  have hempty : fetch_google_trends limit srs = [] := by
    unfold fetch_google_trends
    rw [collectRows_fail limit srs h]
  refine ⟨hempty, ?_, ?_⟩
  · rw [hempty]
    unfold mergeRank
    have := List.mergeSort_perm
      ((anilist.map (rowOf date)) ++ (List.map (rowOf date) [])) rowLE
    simpa using this
  · intro e he
    unfold written_rows
    rw [List.mem_map]
    exact ⟨rowOf date e, mem_mergeRank.2 (List.mem_append_left _ (List.mem_map_of_mem _ he)),
      rfl⟩

/-- Claim C3 (witness): a concrete run where the second seed rate-limits —
trends come back empty and the single catalog entry is still written. -/
theorem trends_failure_isolated_witness :
    fetch_google_trends 20
        [("manga", SeedResult.rising [("one piece", 50)]), ("manhwa", SeedResult.fail)] = []
      ∧ (mergeRank "2026-10-12" [⟨"T", "AniList", 3, "d"⟩]
          (fetch_google_trends 20
            [("manga", SeedResult.rising [("one piece", 50)]),
              ("manhwa", SeedResult.fail)])).Perm
          ([⟨"T", "AniList", 3, "d"⟩].map (rowOf "2026-10-12"))
      ∧ ∀ e ∈ [(⟨"T", "AniList", 3, "d"⟩ : Entry)],
          rowCells (rowOf "2026-10-12" e) ∈
            written_rows "2026-10-12" [⟨"T", "AniList", 3, "d"⟩]
              (fetch_google_trends 20
                [("manga", SeedResult.rising [("one piece", 50)]),
                  ("manhwa", SeedResult.fail)]) :=
  trends_failure_isolated 20
    [("manga", SeedResult.rising [("one piece", 50)]), ("manhwa", SeedResult.fail)]
    "2026-10-12" [⟨"T", "AniList", 3, "d"⟩]
    ⟨("manhwa", SeedResult.fail), by simp, rfl⟩

/- ### Trends dedup / sort / truncate (C8) -/

theorem trendLE_trans : ∀ a b c : TRow, trendLE a b → trendLE b c → trendLE a c := by
  intro a b c hab hbc
  simp only [trendLE, decide_eq_true_eq] at *
  exact le_trans hbc hab

theorem trendLE_total : ∀ a b : TRow, trendLE a b || trendLE b a := by
  intro a b
  simp only [trendLE, Bool.or_eq_true, decide_eq_true_eq]
  exact le_total b.2.1 a.2.1

theorem mem_insertBest (best : List TRow) (r e : TRow)
    (h : e ∈ insertBest best r) : e ∈ best ∨ e = r := by
  induction best with
  | nil =>
    simp [insertBest] at h
    right
    exact h
  | cons b rest ih =>
    unfold insertBest at h
    by_cases hb : b.1 = r.1
    · rw [if_pos hb] at h
      by_cases hv : b.2.1 < r.2.1
      · rw [if_pos hv] at h
        rcases List.mem_cons.1 h with h1 | h1
        · right
          rw [h1, hb]
        · left
          exact List.mem_cons_of_mem _ h1
      · rw [if_neg hv] at h
        left
        exact h
    · rw [if_neg hb] at h
      rcases List.mem_cons.1 h with h1 | h1
      · left
        rw [h1]
        exact List.mem_cons_self _ _
      · rcases ih h1 with h2 | h2
        · left
          exact List.mem_cons_of_mem _ h2
        · right
          exact h2

theorem keys_insertBest (best : List TRow) (r : TRow) :
    (insertBest best r).map Prod.fst =
      if r.1 ∈ best.map Prod.fst then best.map Prod.fst
      else best.map Prod.fst ++ [r.1] := by
  induction best with
  | nil => simp [insertBest]
  | cons b rest ih =>
    unfold insertBest
    by_cases hb : b.1 = r.1
    · rw [if_pos hb]
      by_cases hv : b.2.1 < r.2.1
      · rw [if_pos hv]
        simp [hb]
      · rw [if_neg hv]
        simp [hb]
    · rw [if_neg hb]
      by_cases hmem : r.1 ∈ rest.map Prod.fst
      · simp only [List.map_cons, ih, if_pos hmem]
        rw [if_pos]
        simp [hmem]
      · simp only [List.map_cons, ih, if_neg hmem]
        rw [if_neg]
        · simp
        · simp only [List.mem_cons]
          rintro (h1 | h1)
          · exact hb h1.symm
          · exact hmem h1

theorem nodupKeys_insertBest (best : List TRow) (r : TRow)
    (h : (best.map Prod.fst).Nodup) : ((insertBest best r).map Prod.fst).Nodup := by
  rw [keys_insertBest]
  split_ifs with hmem
  · exact h
  · simp [List.nodup_append, h, hmem]

theorem nodupKeys_buildBest :
    ∀ (rows best : List TRow), (best.map Prod.fst).Nodup →
      ((buildBest best rows).map Prod.fst).Nodup := by
  intro rows
  induction rows with
  | nil => intro best h; exact h
  | cons r rest ih =>
    intro best h
    exact ih (insertBest best r) (nodupKeys_insertBest best r h)

theorem mem_buildBest :
    ∀ (rows best : List TRow) (e : TRow), e ∈ buildBest best rows →
      e ∈ best ∨ e ∈ rows := by
  intro rows
  induction rows with
  | nil =>
    intro best e h
    left
    exact h
  | cons r rest ih =>
    intro best e h
    rcases ih (insertBest best r) e h with h1 | h1
    · rcases mem_insertBest best r e h1 with h2 | h2
      · left; exact h2
      · right; rw [h2]; exact List.mem_cons_self _ _
    · right
      exact List.mem_cons_of_mem _ h1

theorem valAt_insertBest_self (best : List TRow) (r : TRow) :
    ∃ v, valAt (insertBest best r) r.1 = some v ∧ r.2.1 ≤ v := by
  induction best with
  | nil => exact ⟨r.2.1, by simp [insertBest, valAt, List.find?], le_refl _⟩
  | cons b rest ih =>
    unfold insertBest
    by_cases hb : b.1 = r.1
    · rw [if_pos hb]
      by_cases hv : b.2.1 < r.2.1
      · rw [if_pos hv]
        exact ⟨r.2.1, by simp [valAt, List.find?, hb], le_refl _⟩
      · rw [if_neg hv]
        exact ⟨b.2.1, by simp [valAt, List.find?, hb], le_of_not_lt hv⟩
    · rw [if_neg hb]
      obtain ⟨v, hval, hle⟩ := ih
      refine ⟨v, ?_, hle⟩
      simp only [valAt, List.find?]
      rw [show (b.1 == r.1) = false by simpa using hb]
      exact hval

theorem valAt_insertBest_mono (best : List TRow) (r : TRow) (q : String) (v : ℚ)
    (h : valAt best q = some v) :
    ∃ w, valAt (insertBest best r) q = some w ∧ v ≤ w := by
  induction best with
  | nil => simp [valAt, List.find?] at h
  | cons b rest ih =>
    unfold insertBest
    by_cases hq : (b.1 == q) = true
    · have hval : v = b.2.1 := by
        simp only [valAt, List.find?, hq] at h
        simp at h
        exact h.symm
      by_cases hb : b.1 = r.1
      · rw [if_pos hb]
        by_cases hv : b.2.1 < r.2.1
        · rw [if_pos hv]
          refine ⟨r.2.1, ?_, by rw [hval]; exact le_of_lt hv⟩
          simp only [valAt, List.find?, hq]
          rfl
        · rw [if_neg hv]
          exact ⟨v, by simp only [valAt, List.find?, hq]; simp [hval], le_refl _⟩
      · rw [if_neg hb]
        refine ⟨v, ?_, le_refl _⟩
        simp only [valAt, List.find?, hq]
        simp [hval]
    · have hrest : valAt rest q = some v := by
        simp only [valAt, List.find?, hq] at h
        simpa [valAt] using h
      by_cases hb : b.1 = r.1
      · rw [if_pos hb]
        by_cases hv : b.2.1 < r.2.1
        · rw [if_pos hv]
          refine ⟨v, ?_, le_refl _⟩
          simp only [valAt, List.find?]
          rw [show ((b.1, r.2.1, r.2.2).1 == q) = false by simpa using hq]
          simpa [valAt] using hrest
        · rw [if_neg hv]
          refine ⟨v, ?_, le_refl _⟩
          simp only [valAt, List.find?, hq]
          simpa [valAt] using hrest
      · rw [if_neg hb]
        obtain ⟨w, hw, hle⟩ := ih hrest
        refine ⟨w, ?_, hle⟩
        simp only [valAt, List.find?, hq]
        simpa [valAt] using hw

theorem valAt_buildBest_mono :
    ∀ (rows best : List TRow) (q : String) (v : ℚ), valAt best q = some v →
      ∃ w, valAt (buildBest best rows) q = some w ∧ v ≤ w := by
  intro rows
  induction rows with
  | nil => intro best q v h; exact ⟨v, h, le_refl _⟩
  | cons r rest ih =>
    intro best q v h
    obtain ⟨w1, hw1, hle1⟩ := valAt_insertBest_mono best r q v h
    obtain ⟨w2, hw2, hle2⟩ := ih (insertBest best r) q w1 hw1
    exact ⟨w2, hw2, le_trans hle1 hle2⟩

theorem valAt_buildBest_row :
    ∀ (rows best : List TRow) (r : TRow), r ∈ rows →
      ∃ w, valAt (buildBest best rows) r.1 = some w ∧ r.2.1 ≤ w := by
  intro rows
  induction rows with
  | nil => intro best r h; simp at h
  | cons r0 rest ih =>
    intro best r h
    rcases List.mem_cons.1 h with rfl | hmem
    · obtain ⟨v, hv, hle⟩ := valAt_insertBest_self best r
      obtain ⟨w, hw, hle2⟩ := valAt_buildBest_mono rest (insertBest best r) r.1 v hv
      exact ⟨w, hw, le_trans hle hle2⟩
    · exact ih (insertBest best r0) r hmem

theorem find?_eq_of_mem_nodupKeys :
    ∀ (l : List TRow) (e : TRow), e ∈ l → (l.map Prod.fst).Nodup →
      l.find? (fun b => b.1 == e.1) = some e := by
  intro l
  induction l with
  | nil => intro e h; simp at h
  | cons b rest ih =>
    intro e h hnd
    rcases List.mem_cons.1 h with rfl | hmem
    · simp [List.find?]
    · have hne : (b.1 == e.1) = false := by
        simp only [beq_eq_false_iff_ne, ne_eq]
        intro hbe
        have : e.1 ∈ rest.map Prod.fst := List.mem_map_of_mem Prod.fst hmem
        rw [← hbe] at this
        simp only [List.map_cons, List.nodup_cons] at hnd
        exact hnd.1 this
      rw [List.find?]
      rw [hne]
      exact ih e hmem (by simp only [List.map_cons, List.nodup_cons] at hnd; exact hnd.2)

theorem valAt_of_mem (best : List TRow) (e : TRow) (hmem : e ∈ best)
    (hnd : (best.map Prod.fst).Nodup) : valAt best e.1 = some e.2.1 := by
  simp [valAt, find?_eq_of_mem_nodupKeys best e hmem hnd]

/-- Claim C8: for every collection of (query, value, seed) rows, the Trends
Fetcher's deduplicated list has pairwise-distinct query texts, each kept
entry is one of the input rows carrying the maximum value seen for its query,
the list is sorted descending by value, and it has at most `limit` entries. -/
theorem topQueries_spec (limit : ℕ) (rows : List TRow) :
    ((topQueries limit rows).map Prod.fst).Nodup
      ∧ (topQueries limit rows).Pairwise (fun a b => b.2.1 ≤ a.2.1)
      ∧ (topQueries limit rows).length ≤ limit
      ∧ ∀ e ∈ topQueries limit rows,
          e ∈ rows ∧ ∀ r ∈ rows, r.1 = e.1 → r.2.1 ≤ e.2.1 := by
  have hnd : ((buildBest [] rows).map Prod.fst).Nodup :=
    nodupKeys_buildBest rows [] (by simp)
  have hperm : List.Perm (((buildBest [] rows).mergeSort trendLE).map Prod.fst)
      ((buildBest [] rows).map Prod.fst) :=
    (List.mergeSort_perm (buildBest [] rows) trendLE).map Prod.fst
  refine ⟨?_, ?_, ?_, ?_⟩
  · have hnds : (((buildBest [] rows).mergeSort trendLE).map Prod.fst).Nodup :=
      hperm.nodup_iff.2 hnd
    unfold topQueries
    exact List.Nodup.sublist (List.Sublist.map Prod.fst (List.take_sublist _ _)) hnds
  · have hs := List.sorted_mergeSort trendLE_trans trendLE_total (buildBest [] rows)
    have hs2 : ((buildBest [] rows).mergeSort trendLE).Pairwise
        (fun a b : TRow => b.2.1 ≤ a.2.1) :=
      hs.imp (by intro a b hab; simpa [trendLE] using hab)
    exact hs2.sublist (List.take_sublist _ _)
  · unfold topQueries
    exact List.length_take_le _ _
  · intro e he
    have hbest : e ∈ buildBest [] rows := by
      have := List.take_subset limit _ he
      rwa [List.mem_mergeSort] at this
    have hrows : e ∈ rows := by
      rcases mem_buildBest rows [] e hbest with h | h
      · simp at h
      · exact h
    refine ⟨hrows, ?_⟩
    intro r hr hq
    obtain ⟨w, hw, hle⟩ := valAt_buildBest_row rows [] r hr
    have hv := valAt_of_mem (buildBest [] rows) e hbest hnd
    rw [hq] at hw
    rw [hv] at hw
    have : w = e.2.1 := by
      injection hw.symm
    rw [← this]
    exact hle

/-- Claim C8 (witness): the property instantiated on a concrete one-row
collection. -/
theorem topQueries_spec_witness :
    ("one piece", (50 : ℚ), "manga") ∈ topQueries 20 [("one piece", 50, "manga")]
      ∧ (("one piece", (50 : ℚ), "manga") ∈ [(("one piece", (50 : ℚ), "manga") : TRow)]
        ∧ ∀ r ∈ [(("one piece", (50 : ℚ), "manga") : TRow)],
            r.1 = ("one piece", (50 : ℚ), "manga").1 →
              r.2.1 ≤ ("one piece", (50 : ℚ), "manga").2.1) := by
  have hmem : ("one piece", (50 : ℚ), "manga") ∈ topQueries 20 [("one piece", 50, "manga")] := by
    have hb : buildBest [] [(("one piece", (50 : ℚ), "manga") : TRow)]
        = [("one piece", 50, "manga")] := rfl
    unfold topQueries
    rw [hb, List.mergeSort_singleton]
    simp
  exact ⟨hmem,
    (topQueries_spec 20 [("one piece", 50, "manga")]).2.2.2 _ hmem⟩

/- ### Config reader (C9) -/

theorem processRows_malformed (cfg : Config) (r : List String) (rest : List (List String))
    (h : r.length ≠ 2) : processRows cfg (r :: rest) = cfg := by
  match r with
  | [] => rfl
  | [a] => rfl
  | [a, b] => exact absurd rfl h
  | a :: b :: c :: t => rfl

/-- Claim C9 (counterexample): on malformed data the result is not the
built-in defaults — a malformed row after a valid `limit` row keeps the
already-applied override (`limit = 5`), while the claim demands the defaults
(`limit = 30`). -/
theorem read_config_counterexample :
    read_config (Except.ok [["key", "value"], ["limit", "5"], ["country"]])
        = ⟨"MA", 5⟩
      ∧ read_config (Except.ok [["key", "value"], ["limit", "5"], ["country"]])
        ≠ defaultConfig := by
  constructor <;> decide

/-- Claim C9 (amended): the Config Reader never raises (it is a total
function); it skips the header row, overrides `limit` only for a digit-string
value and `country` only for a non-empty value; a sheet-read failure before
any row is processed yields the built-in defaults, and a malformed row stops
processing, keeping the overrides applied up to that point. -/
theorem read_config_behaviour :
    read_config (Except.error ()) = defaultConfig
      ∧ (∀ (h1 h2 : List String) (rows : List (List String)),
          read_config (Except.ok (h1 :: rows)) = read_config (Except.ok (h2 :: rows)))
      ∧ (∀ (cfg : Config) (k v : String) (rest : List (List String)),
          pyStrip k = "limit" → isDigitStr (pyStrip v) = true →
            processRows cfg ([k, v] :: rest)
              = processRows { cfg with limit := pyInt (pyStrip v) } rest)
      ∧ (∀ (cfg : Config) (k v : String) (rest : List (List String)),
          pyStrip k = "limit" → isDigitStr (pyStrip v) = false →
            processRows cfg ([k, v] :: rest) = processRows cfg rest)
      ∧ (∀ (cfg : Config) (k v : String) (rest : List (List String)),
          pyStrip k = "country" → pyStrip v ≠ "" →
            processRows cfg ([k, v] :: rest)
              = processRows { cfg with country := pyStrip v } rest)
      ∧ (∀ (cfg : Config) (k v : String) (rest : List (List String)),
          pyStrip k = "country" → pyStrip v = "" →
            processRows cfg ([k, v] :: rest) = processRows cfg rest)
      ∧ (∀ (cfg : Config) (r : List String) (rest : List (List String)),
          r.length ≠ 2 → processRows cfg (r :: rest) = cfg) := by
  refine ⟨rfl, fun h1 h2 rows => rfl, ?_, ?_, ?_, ?_, processRows_malformed⟩
  · intro cfg k v rest hk hd
    show processRows (applyRow cfg k v) rest = _
    congr 1
    simp [applyRow, hk, hd]
  · intro cfg k v rest hk hd
    show processRows (applyRow cfg k v) rest = _
    congr 1
    simp [applyRow, hk, hd]
  · intro cfg k v rest hk hv
    show processRows (applyRow cfg k v) rest = _
    congr 1
    simp [applyRow, hk, hv]
  · intro cfg k v rest hk hv
    show processRows (applyRow cfg k v) rest = _
    congr 1
    simp [applyRow, hk, hv]

/-- Claim C9 (witness): the amended behaviour instantiated concretely — a
digit-string limit row overrides the limit, and a malformed row returns the
configuration unchanged. -/
theorem read_config_behaviour_witness :
    processRows defaultConfig [["limit", "7"]]
        = processRows { defaultConfig with limit := pyInt (pyStrip "7") } []
      ∧ processRows defaultConfig [["country"]] = defaultConfig := by
  refine ⟨read_config_behaviour.2.2.1 defaultConfig "limit" "7" [] ?_ ?_,
    read_config_behaviour.2.2.2.2.2.2 defaultConfig ["country"] [] ?_⟩ <;> decide

/- ### Catalog fallback (C4, modelled from the spec) -/

/-- Claim C4: whenever the primary query yields fewer than `limit` qualifying
items and the fallback holds enough items with fresh ids, the combined result
has exactly `limit` items with pairwise-distinct ids. Modelled from the spec
(the fallback-enabled revision is not under src/). -/
theorem combineWithFallback_spec (limit : ℕ) (primary fallback : List CatalogItem)
    (hp : (primary.map CatalogItem.id).Nodup)
    (hf : (fallback.map CatalogItem.id).Nodup)
    (hlt : primary.length < limit)
    (henough : limit - primary.length ≤
      (fallback.filter (fun m => primary.all (fun p => p.id != m.id))).length) :
    (combineWithFallback limit primary fallback).length = limit
      ∧ ((combineWithFallback limit primary fallback).map CatalogItem.id).Nodup := by
  have hcond : ¬ limit ≤ primary.length := not_le.2 hlt
  unfold combineWithFallback
  rw [if_neg hcond]
  constructor
  · rw [List.length_append, List.length_take, min_eq_left henough]
    omega
  · rw [List.map_append, List.nodup_append]
    refine ⟨hp, ?_, ?_⟩
    · apply List.Nodup.sublist (List.Sublist.map CatalogItem.id ?_) hf
      exact List.Sublist.trans (List.take_sublist _ _) (List.filter_sublist _)
    · intro a ha hb
      obtain ⟨p, hpmem, rfl⟩ := List.mem_map.1 ha
      obtain ⟨m, hmmem, hmid⟩ := List.mem_map.1 hb
      have hmf : m ∈ fallback.filter (fun m => primary.all (fun p => p.id != m.id)) :=
        List.take_subset _ _ hmmem
      have hall := (List.mem_filter.1 hmf).2
      rw [List.all_eq_true] at hall
      have := hall p hpmem
      simp only [bne_iff_ne, ne_eq] at this
      exact this hmid.symm

/-- Claim C4 (witness): the spec's example — 2 qualifying primary items,
`limit = 5`, a fallback with one duplicate id and three fresh ids — combines
to exactly 5 distinct-id items. -/
theorem combineWithFallback_spec_witness :
    (combineWithFallback 5 [⟨1, "P1"⟩, ⟨2, "P2"⟩]
        [⟨1, "F1"⟩, ⟨3, "F3"⟩, ⟨4, "F4"⟩, ⟨5, "F5"⟩]).length = 5
      ∧ ((combineWithFallback 5 [⟨1, "P1"⟩, ⟨2, "P2"⟩]
          [⟨1, "F1"⟩, ⟨3, "F3"⟩, ⟨4, "F4"⟩, ⟨5, "F5"⟩]).map CatalogItem.id).Nodup :=
  combineWithFallback_spec 5 [⟨1, "P1"⟩, ⟨2, "P2"⟩]
    [⟨1, "F1"⟩, ⟨3, "F3"⟩, ⟨4, "F4"⟩, ⟨5, "F5"⟩]
    (by decide) (by decide) (by decide) (by decide)

end TrendsAgent
